import Mathlib

/-!
Shallow embedding of the ray-tracer-challenge core library
(src/matrix.rs, src/canvas.rs, src/color.rs, src/point.rs, src/vector.rs,
src/num.rs, src/util.rs).  Scalars (`f64`) are modelled as exact rationals;
flat `[f64; N]` arrays are modelled as functions out of `Fin N`.
-/

namespace RayTracer

/-- `EPSILON` for `f64` from src/num.rs: `1.0e-5`. -/
def EPSILON : ℚ := 1 / 100000

/-- src/util.rs `float_eq`: `(left - right).abs() <= Float::EPSILON`. -/
def float_eq (a b : ℚ) : Prop := |a - b| ≤ EPSILON

instance (a b : ℚ) : Decidable (float_eq a b) := by unfold float_eq; infer_instance

/-- A 4x4 matrix: the `elements: [f64; 16]` row-major array of src/matrix.rs. -/
def Mat16 := Fin 16 → ℚ

/-- Row-major flat index `row * 4 + col` used by `Matrix::get`. -/
def idx4 (r c : Fin 4) : Fin 16 := ⟨r.val * 4 + c.val, by omega⟩

/-- `Matrix::get(row, col)`: `elements[row * 4 + col]`. -/
def matGet (m : Mat16) (r c : Fin 4) : ℚ := m (idx4 r c)

/-- `Matrix::IDENTITY`: the constant array `[1,0,0,0, 0,1,0,0, 0,0,1,0, 0,0,0,1]`. -/
def identity : Mat16 := fun i =>
  [1, 0, 0, 0, 0, 1, 0, 0, 0, 0, 1, 0, 0, 0, 0, 1].getD i.val 0

/-- src/matrix.rs `det2`: `matrix[0] * matrix[3] - matrix[2] * matrix[1]`. -/
def det2 (m : Fin 4 → ℚ) : ℚ :=
  m ⟨0, by omega⟩ * m ⟨3, by omega⟩ - m ⟨2, by omega⟩ * m ⟨1, by omega⟩

/-- The i-th element of `(0..3).filter(|v| *v != d)` (ascending, skipping `d`),
used to describe the write order of the `submat3` fill loop. -/
def skip3 (d : Fin 3) (i : Fin 2) : Fin 3 :=
  if i.val < d.val then ⟨i.val, by omega⟩ else ⟨i.val + 1, by omega⟩

/-- The i-th element of `(0..4).filter(|v| *v != d)` (ascending, skipping `d`). -/
def skip4 (d : Fin 4) (i : Fin 3) : Fin 4 :=
  if i.val < d.val then ⟨i.val, by omega⟩ else ⟨i.val + 1, by omega⟩

/-- src/matrix.rs `submat3`: deletes row `row` and column `col` of a 3x3 matrix.
The source fills a `[f64; 4]` sequentially, row-major over the kept rows and
columns in ascending order, so the element at flat index `i = 2*a + b` is
`matrix[3 * (a-th kept row) + (b-th kept col)]`. -/
def submat3 (m : Fin 9 → ℚ) (row col : Fin 3) : Fin 4 → ℚ := fun i =>
  m ⟨3 * (skip3 row ⟨i.val / 2, by omega⟩).val + (skip3 col ⟨i.val % 2, by omega⟩).val, by
    have := (skip3 row ⟨i.val / 2, by omega⟩).isLt
    have := (skip3 col ⟨i.val % 2, by omega⟩).isLt
    omega⟩

/-- src/matrix.rs `submat4`: deletes row `row` and column `col` of a 4x4 matrix.
The element at flat index `i = 3*a + b` of the result is
`matrix[4 * (a-th kept row) + (b-th kept col)]`. -/
def submat4 (m : Fin 16 → ℚ) (row col : Fin 4) : Fin 9 → ℚ := fun i =>
  m ⟨4 * (skip4 row ⟨i.val / 3, by omega⟩).val + (skip4 col ⟨i.val % 3, by omega⟩).val, by
    have := (skip4 row ⟨i.val / 3, by omega⟩).isLt
    have := (skip4 col ⟨i.val % 3, by omega⟩).isLt
    omega⟩

/-- src/matrix.rs `minor3`: `det2(submat3(matrix, row, col))`. -/
def minor3 (m : Fin 9 → ℚ) (row col : Fin 3) : ℚ := det2 (submat3 m row col)

/-- src/matrix.rs `cofactor3`: negate the minor when `(row + col) & 1 == 1`,
i.e. when `row + col` is odd. -/
def cofactor3 (m : Fin 9 → ℚ) (row col : Fin 3) : ℚ :=
  if (row.val + col.val) % 2 = 1 then -(minor3 m row col) else minor3 m row col

/-- src/matrix.rs `det3`: the loop
`for col in 0..3 { det += matrix[col] * cofactor3(matrix, 0, col) }`. -/
def det3 (m : Fin 9 → ℚ) : ℚ :=
  m ⟨0, by omega⟩ * cofactor3 m ⟨0, by omega⟩ ⟨0, by omega⟩ +
    m ⟨1, by omega⟩ * cofactor3 m ⟨0, by omega⟩ ⟨1, by omega⟩ +
    m ⟨2, by omega⟩ * cofactor3 m ⟨0, by omega⟩ ⟨2, by omega⟩

/-- src/matrix.rs `minor4`: `det3(submat4(matrix, row, col))`. -/
def minor4 (m : Fin 16 → ℚ) (row col : Fin 4) : ℚ := det3 (submat4 m row col)

/-- src/matrix.rs `cofactor4`: negate the minor when `(row + col) & 1 == 1`. -/
def cofactor4 (m : Fin 16 → ℚ) (row col : Fin 4) : ℚ :=
  if (row.val + col.val) % 2 = 1 then -(minor4 m row col) else minor4 m row col

/-- src/matrix.rs `det4`: the loop
`for col in 0..4 { det += matrix[col] * cofactor4(matrix, 0, col) }`. -/
def det4 (m : Fin 16 → ℚ) : ℚ :=
  m ⟨0, by omega⟩ * cofactor4 m ⟨0, by omega⟩ ⟨0, by omega⟩ +
    m ⟨1, by omega⟩ * cofactor4 m ⟨0, by omega⟩ ⟨1, by omega⟩ +
    m ⟨2, by omega⟩ * cofactor4 m ⟨0, by omega⟩ ⟨2, by omega⟩ +
    m ⟨3, by omega⟩ * cofactor4 m ⟨0, by omega⟩ ⟨3, by omega⟩

/-- `Matrix::determinant`. -/
def determinant (m : Mat16) : ℚ := det4 m

/-- `Matrix::is_invertible`: `self.determinant() != 0.` (exact comparison). -/
def is_invertible (m : Mat16) : Prop := determinant m ≠ 0

instance (m : Mat16) : Decidable (is_invertible m) := by
  unfold is_invertible; infer_instance

/-- src/matrix.rs `inv`: `inverse[col * 4 + row] = cofactor4(matrix, row, col) / det`.
The output flat index `i` therefore has loop variable `col = i / 4` and
`row = i % 4`. -/
def inv (m : Mat16) : Mat16 := fun i =>
  cofactor4 m ⟨i.val % 4, by omega⟩ ⟨i.val / 4, by omega⟩ / det4 m

/-- `Matrix::inverse`. -/
def inverse (m : Mat16) : Mat16 := inv m

/-- `impl PartialEq for Matrix`: all 16 element pairs satisfy `float_eq`. -/
def matEq (a b : Mat16) : Prop := ∀ i : Fin 16, float_eq (a i) (b i)

instance (a b : Mat16) : Decidable (matEq a b) := by
  unfold matEq; infer_instance

/-- `impl Mul for Matrix`:
`elements[row*4 + col] = Σ_{k<4} self.get(row,k) * rhs.get(k,col)` written
as the explicit four-term sum of the source; the flat output index `i` has
`row = i / 4`, `col = i % 4`. -/
def matMul (a b : Mat16) : Mat16 := fun i =>
  matGet a ⟨i.val / 4, by omega⟩ ⟨0, by omega⟩ * matGet b ⟨0, by omega⟩ ⟨i.val % 4, by omega⟩ +
    matGet a ⟨i.val / 4, by omega⟩ ⟨1, by omega⟩ * matGet b ⟨1, by omega⟩ ⟨i.val % 4, by omega⟩ +
    matGet a ⟨i.val / 4, by omega⟩ ⟨2, by omega⟩ * matGet b ⟨2, by omega⟩ ⟨i.val % 4, by omega⟩ +
    matGet a ⟨i.val / 4, by omega⟩ ⟨3, by omega⟩ * matGet b ⟨3, by omega⟩ ⟨i.val % 4, by omega⟩

/-- A convenient matrix literal: row-major list of 16 entries. -/
def matOf (l : List ℚ) : Mat16 := fun i => l.getD i.val 0

/-! ### Specification-side determinant (for claim C1)

Modelled from the words of the spec: `det(M) = Σ_col M[0,col] * cofactor(M,0,col)`
with `cofactor(M,r,c) = (−1)^(r+c) * minor(M,r,c)`, the recursion bottoming
out at the closed-form 2x2 determinant `a*d − b*c`. -/

/-- Spec 2x2 base case `a*d − b*c` for the matrix `[a,b, c,d]`. -/
def det2Spec (m : Fin 4 → ℚ) : ℚ :=
  m ⟨0, by omega⟩ * m ⟨3, by omega⟩ - m ⟨1, by omega⟩ * m ⟨2, by omega⟩

/-- Spec cofactor for the 3x3 case: `(−1)^(r+c) * det2Spec` of the deleted submatrix. -/
def cofactor3Spec (m : Fin 9 → ℚ) (row col : Fin 3) : ℚ :=
  (-1 : ℚ) ^ (row.val + col.val) * det2Spec (submat3 m row col)

/-- Spec 3x3 determinant: cofactor expansion along row 0. -/
def det3Spec (m : Fin 9 → ℚ) : ℚ :=
  ∑ col : Fin 3, m ⟨col.val, by omega⟩ * cofactor3Spec m ⟨0, by omega⟩ col

/-- Spec cofactor for the 4x4 case: `(−1)^(r+c) * det3Spec` of the deleted submatrix. -/
def cofactor4Spec (m : Fin 16 → ℚ) (row col : Fin 4) : ℚ :=
  (-1 : ℚ) ^ (row.val + col.val) * det3Spec (submat4 m row col)

/-- Spec 4x4 determinant: cofactor expansion along row 0. -/
def det4Spec (m : Fin 16 → ℚ) : ℚ :=
  ∑ col : Fin 4, m ⟨col.val, by omega⟩ * cofactor4Spec m ⟨0, by omega⟩ col

lemma cofactor3_eq_spec (m : Fin 9 → ℚ) (row col : Fin 3) :
    cofactor3 m row col = cofactor3Spec m row col := by
  have h2 : det2 (submat3 m row col) = det2Spec (submat3 m row col) := by
    unfold det2 det2Spec; ring
  unfold cofactor3 cofactor3Spec minor3
  rcases Nat.even_or_odd (row.val + col.val) with h | h
  · have hm := Nat.even_iff.mp h
    rw [if_neg (by omega), Even.neg_one_pow h, h2]; ring
  · have hm := Nat.odd_iff.mp h
    rw [if_pos hm, Odd.neg_one_pow h, h2]; ring

lemma det3_eq_spec (m : Fin 9 → ℚ) : det3 m = det3Spec m := by
  unfold det3 det3Spec
  rw [Fin.sum_univ_three]
  simp only [cofactor3_eq_spec]
  rfl

lemma cofactor4_eq_spec (m : Fin 16 → ℚ) (row col : Fin 4) :
    cofactor4 m row col = cofactor4Spec m row col := by
  unfold cofactor4 cofactor4Spec minor4
  rw [det3_eq_spec]
  rcases Nat.even_or_odd (row.val + col.val) with h | h
  · have hm := Nat.even_iff.mp h
    rw [if_neg (by omega), Even.neg_one_pow h]; ring
  · have hm := Nat.odd_iff.mp h
    rw [if_pos hm, Odd.neg_one_pow h]; ring

lemma det4_eq_spec (m : Fin 16 → ℚ) : det4 m = det4Spec m := by
  unfold det4 det4Spec
  rw [Fin.sum_univ_four]
  simp only [cofactor4_eq_spec]
  rfl

/-- Explicit 2x2 minor expansion of `det3`. -/
lemma det3_expand (m : Fin 9 → ℚ) : det3 m =
    m ⟨0, by omega⟩ * (m ⟨4, by omega⟩ * m ⟨8, by omega⟩ - m ⟨7, by omega⟩ * m ⟨5, by omega⟩)
  - m ⟨1, by omega⟩ * (m ⟨3, by omega⟩ * m ⟨8, by omega⟩ - m ⟨6, by omega⟩ * m ⟨5, by omega⟩)
  + m ⟨2, by omega⟩ * (m ⟨3, by omega⟩ * m ⟨7, by omega⟩ - m ⟨6, by omega⟩ * m ⟨4, by omega⟩) := by
  unfold det3 cofactor3 minor3 det2 submat3 skip3
  norm_num
  ring

/-- The determinant example matrix of the spec and of the `det4` test. -/
def detExample : Mat16 :=
  matOf [-2, -8, 3, 5, -3, 1, 7, 3, 1, 2, -9, 6, -6, 7, 7, -9]

lemma detExample_val : determinant detExample = -4071 := by
  show det4 detExample = -4071
  unfold det4 cofactor4 minor4
  norm_num
  rw [det3_expand, det3_expand, det3_expand, det3_expand]
  norm_num [detExample, matOf, submat4, skip4]

/-- C1: `determinant()` is the recursive Laplace/cofactor expansion along row 0,
with `cofactor(M,r,c) = (−1)^(r+c) * det(submatrix deleting row r, col c)`,
the 3x3 determinant expanded the same way along its row 0, and the 2x2 base
case `a*d − b*c`; on the example matrix the determinant is exactly `-4071`. -/
theorem determinant_is_cofactor_expansion :
    (∀ m : Mat16, determinant m = det4Spec m) ∧ determinant detExample = -4071 :=
  ⟨fun m => det4_eq_spec m, detExample_val⟩

/-! ### Claim C2: the inverse via the adjugate method -/

/-- The inverse example matrix of the spec and of the `invert` test. -/
def invExample : Mat16 :=
  matOf [-5, 2, 6, -8, 1, -5, 1, 8, 7, 7, -6, -7, 1, -3, 7, 4]

lemma invExample_det : det4 invExample = 532 := by
  unfold det4 cofactor4 minor4
  norm_num
  rw [det3_expand, det3_expand, det3_expand, det3_expand]
  norm_num [invExample, matOf, submat4, skip4]

lemma invExample_cof00 : cofactor4 invExample ⟨0, by omega⟩ ⟨0, by omega⟩ = 116 := by
  unfold cofactor4 minor4
  norm_num
  rw [det3_expand]
  norm_num [invExample, matOf, submat4, skip4]

lemma invExample_cof10 : cofactor4 invExample ⟨1, by omega⟩ ⟨0, by omega⟩ = 240 := by
  unfold cofactor4 minor4
  norm_num
  rw [det3_expand]
  norm_num [invExample, matOf, submat4, skip4]

lemma invExample_cof20 : cofactor4 invExample ⟨2, by omega⟩ ⟨0, by omega⟩ = 128 := by
  unfold cofactor4 minor4
  norm_num
  rw [det3_expand]
  norm_num [invExample, matOf, submat4, skip4]

lemma invExample_cof30 : cofactor4 invExample ⟨3, by omega⟩ ⟨0, by omega⟩ = -24 := by
  unfold cofactor4 minor4
  norm_num
  rw [det3_expand]
  norm_num [invExample, matOf, submat4, skip4]

/-- The general adjugate placement of `inv`: output element `(col, row)` is
`cofactor4(m, row, col) / determinant(m)`. -/
lemma inverse_entry (m : Mat16) (row col : Fin 4) :
    matGet (inverse m) col row = cofactor4 m row col / determinant m := by
  unfold matGet inverse inv idx4 determinant
  have h1 : (⟨(col.val * 4 + row.val) % 4, by omega⟩ : Fin 4) = row := by
    apply Fin.ext
    show (col.val * 4 + row.val) % 4 = row.val
    have := row.isLt
    omega
  have h2 : (⟨(col.val * 4 + row.val) / 4, by omega⟩ : Fin 4) = col := by
    apply Fin.ext
    show (col.val * 4 + row.val) / 4 = col.val
    have := row.isLt
    omega
  rw [h1, h2]

/-- C2: `inverse()` places `cofactor(M,row,col) / determinant(M)` at output
position `(col,row)` (transposed placement), and the first row of the inverse
of the example matrix is epsilon-equal to `[0.21805, 0.45113, 0.24060, -0.04511]`. -/
theorem inverse_is_adjugate_over_determinant :
    (∀ (m : Mat16) (row col : Fin 4),
        matGet (inverse m) col row = cofactor4 m row col / determinant m) ∧
      float_eq (matGet (inverse invExample) ⟨0, by omega⟩ ⟨0, by omega⟩) (21805 / 100000) ∧
      float_eq (matGet (inverse invExample) ⟨0, by omega⟩ ⟨1, by omega⟩) (45113 / 100000) ∧
      float_eq (matGet (inverse invExample) ⟨0, by omega⟩ ⟨2, by omega⟩) (24060 / 100000) ∧
      float_eq (matGet (inverse invExample) ⟨0, by omega⟩ ⟨3, by omega⟩) (-4511 / 100000) := by
  refine ⟨inverse_entry, ?_, ?_, ?_, ?_⟩ <;>
    · rw [show (⟨0, by omega⟩ : Fin 4) = (⟨0, by omega⟩ : Fin 4) from rfl, inverse_entry]
      unfold determinant float_eq EPSILON
      first
      | rw [invExample_cof00, invExample_det, abs_le]; constructor <;> norm_num
      | rw [invExample_cof10, invExample_det, abs_le]; constructor <;> norm_num
      | rw [invExample_cof20, invExample_det, abs_le]; constructor <;> norm_num
      | rw [invExample_cof30, invExample_det, abs_le]; constructor <;> norm_num

/-! ### Claim C3: the inverse is a two-sided inverse up to epsilon equality -/

set_option maxHeartbeats 4000000 in
lemma left_inverse_entry (m : Mat16) (hdet : det4 m ≠ 0) (i : Fin 16) :
    matMul (inv m) m i = identity i := by
  fin_cases i <;>
    · simp only [matMul, matGet, idx4, inv, identity]
      norm_num
      field_simp
      simp only [det4, cofactor4, minor4]
      norm_num
      try simp only [det3_expand]
      try simp only [submat4, skip4]
      try norm_num
      try ring

set_option maxHeartbeats 4000000 in
lemma right_inverse_entry (m : Mat16) (hdet : det4 m ≠ 0) (i : Fin 16) :
    matMul m (inv m) i = identity i := by
  fin_cases i <;>
    · simp only [matMul, matGet, idx4, inv, identity]
      norm_num
      field_simp
      simp only [det4, cofactor4, minor4]
      norm_num
      try simp only [det3_expand]
      try simp only [submat4, skip4]
      try norm_num
      try ring

/-- C3: for an invertible matrix both `inverse * M` and `M * inverse` are
equal to the identity under the epsilon-tolerant matrix equality. -/
theorem inverse_mul_eq_identity (m : Mat16) (h : is_invertible m) :
    matEq (matMul (inverse m) m) identity ∧ matEq (matMul m (inverse m)) identity := by
  have hdet : det4 m ≠ 0 := h
  constructor <;> intro i
  · rw [show matMul (inverse m) m i = identity i from left_inverse_entry m hdet i]
    unfold float_eq EPSILON
    rw [sub_self, abs_zero]
    norm_num
  · rw [show matMul m (inverse m) i = identity i from right_inverse_entry m hdet i]
    unfold float_eq EPSILON
    rw [sub_self, abs_zero]
    norm_num

/-- Witness for C3 at the concrete invertible example matrix. -/
theorem inverse_mul_eq_identity_witness :
    is_invertible detExample ∧
      (matEq (matMul (inverse detExample) detExample) identity ∧
        matEq (matMul detExample (inverse detExample)) identity) := by
  have h : is_invertible detExample := by
    unfold is_invertible
    rw [detExample_val]
    norm_num
  exact ⟨h, inverse_mul_eq_identity detExample h⟩

/-! ### Vectors and points (src/vector.rs, src/point.rs) -/

/-- src/vector.rs `Vector`: components `x`, `y`, `z`. -/
structure Vector where
  x : ℚ
  y : ℚ
  z : ℚ
deriving DecidableEq

/-- src/point.rs `Point`: coordinates `x`, `y`, `z`. -/
structure Point where
  x : ℚ
  y : ℚ
  z : ℚ
deriving DecidableEq

/-- `impl Mul<Vector> for Matrix`: only columns 0..2 of rows 0..2 are read;
column 3 (the translation column) is never accessed. -/
def mulVec (m : Mat16) (v : Vector) : Vector where
  x := matGet m ⟨0, by omega⟩ ⟨0, by omega⟩ * v.x + matGet m ⟨0, by omega⟩ ⟨1, by omega⟩ * v.y +
    matGet m ⟨0, by omega⟩ ⟨2, by omega⟩ * v.z
  y := matGet m ⟨1, by omega⟩ ⟨0, by omega⟩ * v.x + matGet m ⟨1, by omega⟩ ⟨1, by omega⟩ * v.y +
    matGet m ⟨1, by omega⟩ ⟨2, by omega⟩ * v.z
  z := matGet m ⟨2, by omega⟩ ⟨0, by omega⟩ * v.x + matGet m ⟨2, by omega⟩ ⟨1, by omega⟩ * v.y +
    matGet m ⟨2, by omega⟩ ⟨2, by omega⟩ * v.z

/-- `impl Mul<Point> for Matrix`: like `mulVec` but each component also adds
the column-3 entry of its row. -/
def mulPoint (m : Mat16) (p : Point) : Point where
  x := matGet m ⟨0, by omega⟩ ⟨0, by omega⟩ * p.x + matGet m ⟨0, by omega⟩ ⟨1, by omega⟩ * p.y +
    matGet m ⟨0, by omega⟩ ⟨2, by omega⟩ * p.z + matGet m ⟨0, by omega⟩ ⟨3, by omega⟩
  y := matGet m ⟨1, by omega⟩ ⟨0, by omega⟩ * p.x + matGet m ⟨1, by omega⟩ ⟨1, by omega⟩ * p.y +
    matGet m ⟨1, by omega⟩ ⟨2, by omega⟩ * p.z + matGet m ⟨1, by omega⟩ ⟨3, by omega⟩
  z := matGet m ⟨2, by omega⟩ ⟨0, by omega⟩ * p.x + matGet m ⟨2, by omega⟩ ⟨1, by omega⟩ * p.y +
    matGet m ⟨2, by omega⟩ ⟨2, by omega⟩ * p.z + matGet m ⟨2, by omega⟩ ⟨3, by omega⟩

/-- C4: applying a matrix to a `Vector` uses only the top-left 3x3 block:
each component is the dot product with columns 0..2, two matrices agreeing on
the 3x3 block agree on every vector, and applying to a `Point` additionally
adds the column-3 (translation) entry to each component. -/
theorem matrix_vector_ignores_translation :
    (∀ (m : Mat16) (v : Vector),
        mulVec m v =
          ⟨matGet m ⟨0, by omega⟩ ⟨0, by omega⟩ * v.x + matGet m ⟨0, by omega⟩ ⟨1, by omega⟩ * v.y +
              matGet m ⟨0, by omega⟩ ⟨2, by omega⟩ * v.z,
            matGet m ⟨1, by omega⟩ ⟨0, by omega⟩ * v.x + matGet m ⟨1, by omega⟩ ⟨1, by omega⟩ * v.y +
              matGet m ⟨1, by omega⟩ ⟨2, by omega⟩ * v.z,
            matGet m ⟨2, by omega⟩ ⟨0, by omega⟩ * v.x + matGet m ⟨2, by omega⟩ ⟨1, by omega⟩ * v.y +
              matGet m ⟨2, by omega⟩ ⟨2, by omega⟩ * v.z⟩) ∧
      (∀ (m n : Mat16) (v : Vector),
        (∀ r c : Fin 4, r.val < 3 → c.val < 3 → matGet m r c = matGet n r c) →
          mulVec m v = mulVec n v) ∧
      (∀ (m : Mat16) (p : Point),
        mulPoint m p =
          ⟨(mulVec m ⟨p.x, p.y, p.z⟩).x + matGet m ⟨0, by omega⟩ ⟨3, by omega⟩,
            (mulVec m ⟨p.x, p.y, p.z⟩).y + matGet m ⟨1, by omega⟩ ⟨3, by omega⟩,
            (mulVec m ⟨p.x, p.y, p.z⟩).z + matGet m ⟨2, by omega⟩ ⟨3, by omega⟩⟩) := by
  refine ⟨fun m v => rfl, fun m n v hag => ?_, fun m p => rfl⟩
  have e00 := hag ⟨0, by omega⟩ ⟨0, by omega⟩ (by norm_num) (by norm_num)
  have e01 := hag ⟨0, by omega⟩ ⟨1, by omega⟩ (by norm_num) (by norm_num)
  have e02 := hag ⟨0, by omega⟩ ⟨2, by omega⟩ (by norm_num) (by norm_num)
  have e10 := hag ⟨1, by omega⟩ ⟨0, by omega⟩ (by norm_num) (by norm_num)
  have e11 := hag ⟨1, by omega⟩ ⟨1, by omega⟩ (by norm_num) (by norm_num)
  have e12 := hag ⟨1, by omega⟩ ⟨2, by omega⟩ (by norm_num) (by norm_num)
  have e20 := hag ⟨2, by omega⟩ ⟨0, by omega⟩ (by norm_num) (by norm_num)
  have e21 := hag ⟨2, by omega⟩ ⟨1, by omega⟩ (by norm_num) (by norm_num)
  have e22 := hag ⟨2, by omega⟩ ⟨2, by omega⟩ (by norm_num) (by norm_num)
  unfold mulVec
  rw [e00, e01, e02, e10, e11, e12, e20, e21, e22]

/-- A pure-translation matrix (identity 3x3 block, nonzero translation column). -/
def transExample : Mat16 :=
  matOf [1, 0, 0, 5, 0, 1, 0, 6, 0, 0, 1, 7, 0, 0, 0, 1]

/-- Witness for C4: the translation matrix and the identity agree on the 3x3
block, so they act identically on a concrete vector. -/
theorem matrix_vector_ignores_translation_witness :
    (∀ r c : Fin 4, r.val < 3 → c.val < 3 → matGet transExample r c = matGet identity r c) ∧
      mulVec transExample ⟨1, 2, 3⟩ = mulVec identity ⟨1, 2, 3⟩ := by
  have hag : ∀ r c : Fin 4, r.val < 3 → c.val < 3 →
      matGet transExample r c = matGet identity r c := by
    intro r c hr hc
    fin_cases r <;> fin_cases c <;> first | rfl | simp at hc
  exact ⟨hag, matrix_vector_ignores_translation.2.1 transExample identity ⟨1, 2, 3⟩ hag⟩

/-! ### Colors (src/color.rs) -/

/-- src/color.rs `Color`: channels `r`, `g`, `b`. -/
structure Color where
  r : ℚ
  g : ℚ
  b : ℚ
deriving DecidableEq

/-- Rust `f64::clamp(min, max)`: `if self < min { min } else if self > max { max } else { self }`. -/
def clamp (x lo hi : ℚ) : ℚ := if x < lo then lo else if x > hi then hi else x

/-- Rust `f64::round`: round to nearest, ties away from zero; exact on rationals. -/
def f64round (q : ℚ) : ℤ := if 0 ≤ q then ⌊q + 1 / 2⌋ else -⌊-q + 1 / 2⌋

/-- src/color.rs `Color::as_tuple`: each channel clamped to `[0,1]`, scaled by
255, rounded, and cast `as u8`.  The cast is value-preserving because the
rounded value always lies in `[0,255]` (proved in the C9 theorem), so the
result is modelled as the natural number itself. -/
def as_tuple (c : Color) : ℕ × ℕ × ℕ :=
  ((f64round (clamp c.r 0 1 * 255)).toNat,
    (f64round (clamp c.g 0 1 * 255)).toNat,
    (f64round (clamp c.b 0 1 * 255)).toNat)

/-- Spec-side clamp: "clamped to [0.0, 1.0]". -/
def clampSpec (x : ℚ) : ℚ := min 1 (max 0 x)

/-- Spec-side rounding: nearest integer, ties away from zero. -/
def roundTiesAway (q : ℚ) : ℤ := if 0 ≤ q then ⌊q + 1 / 2⌋ else ⌈q - 1 / 2⌉

/-- Spec-side byte conversion of one channel. -/
def byteSpec (x : ℚ) : ℕ := (roundTiesAway (clampSpec x * 255)).toNat

lemma clamp01_eq_spec (x : ℚ) : clamp x 0 1 = clampSpec x := by
  unfold clamp clampSpec
  rcases lt_trichotomy x 0 with h | h | h
  · rw [if_pos h]
    rw [max_eq_left h.le, min_eq_right (by norm_num)]
  · subst h
    rw [if_neg (by norm_num), if_neg (by norm_num), max_eq_right (by norm_num),
      min_eq_right (by norm_num)]
  · rw [if_neg (by linarith), max_eq_right h.le]
    rcases le_or_lt x 1 with h1 | h1
    · rw [if_neg (by linarith), min_eq_right h1]
    · rw [if_pos h1, min_eq_left h1.le]

lemma f64round_eq_spec (q : ℚ) : f64round q = roundTiesAway q := by
  unfold f64round roundTiesAway
  rcases le_or_lt 0 q with h | h
  · rw [if_pos h, if_pos h]
  · rw [if_neg (by linarith), if_neg (by linarith)]
    rw [show -q + 1 / 2 = -(q - 1 / 2) by ring, Int.floor_neg]
    simp

lemma clamp01_mem (x : ℚ) : 0 ≤ clamp x 0 1 ∧ clamp x 0 1 ≤ 1 := by
  unfold clamp
  rcases lt_trichotomy x 0 with h | h | h
  · rw [if_pos h]; norm_num
  · subst h; norm_num
  · rw [if_neg (by linarith)]
    rcases le_or_lt x 1 with h1 | h1
    · rw [if_neg (by linarith)]; exact ⟨h.le, h1⟩
    · rw [if_pos h1]; norm_num

lemma byte_le_255 (x : ℚ) : (f64round (clamp x 0 1 * 255)).toNat ≤ 255 := by
  obtain ⟨h0, h1⟩ := clamp01_mem x
  have hq : (0 : ℚ) ≤ clamp x 0 1 * 255 := by positivity
  unfold f64round
  rw [if_pos hq]
  have hmono : ⌊clamp x 0 1 * 255 + 1 / 2⌋ ≤ ⌊(511 / 2 : ℚ)⌋ :=
    Int.floor_le_floor (by linarith)
  have hval : ⌊(511 / 2 : ℚ)⌋ = 255 := by with_unfolding_all rfl
  omega

/-- C9: `as_tuple` clamps each channel to `[0,1]`, scales by 255 and rounds to
the nearest integer with ties away from zero; each result fits in 8 bits, and
`Color(1.5, 0.5, 0.0)` maps to `(255, 128, 0)`. -/
theorem as_tuple_clamps_scales_rounds :
    (∀ c : Color, as_tuple c = (byteSpec c.r, byteSpec c.g, byteSpec c.b)) ∧
      (∀ c : Color,
        (as_tuple c).1 ≤ 255 ∧ (as_tuple c).2.1 ≤ 255 ∧ (as_tuple c).2.2 ≤ 255) ∧
      as_tuple ⟨3 / 2, 1 / 2, 0⟩ = (255, 128, 0) := by
  refine ⟨fun c => ?_, fun c => ?_, ?_⟩
  · unfold as_tuple byteSpec
    rw [clamp01_eq_spec, clamp01_eq_spec, clamp01_eq_spec,
      f64round_eq_spec, f64round_eq_spec, f64round_eq_spec]
  · exact ⟨byte_le_255 c.r, byte_le_255 c.g, byte_le_255 c.b⟩
  · with_unfolding_all decide

/-! ### Epsilon-tolerant equality (claim C8) -/

/-- `impl PartialEq for Point`. -/
def pointEq (p q : Point) : Prop :=
  float_eq p.x q.x ∧ float_eq p.y q.y ∧ float_eq p.z q.z

instance (p q : Point) : Decidable (pointEq p q) := by unfold pointEq; infer_instance

/-- `impl PartialEq for Vector`. -/
def vecEq (v w : Vector) : Prop :=
  float_eq v.x w.x ∧ float_eq v.y w.y ∧ float_eq v.z w.z

instance (v w : Vector) : Decidable (vecEq v w) := by unfold vecEq; infer_instance

/-- `impl PartialEq for Color`. -/
def colorEq (c d : Color) : Prop :=
  float_eq c.r d.r ∧ float_eq c.g d.g ∧ float_eq c.b d.b

instance (c d : Color) : Decidable (colorEq c d) := by unfold colorEq; infer_instance

/-- C8: equality on Point, Vector, Color and Matrix is component-wise
epsilon-tolerant with epsilon `1e-5`: equal iff every component pair differs
by at most `1e-5`; the concrete examples of the spec hold, with the
more-than-epsilon pair compared unequal. -/
theorem eq_is_componentwise_epsilon :
    (∀ p q : Point, pointEq p q ↔
        (|p.x - q.x| ≤ 1 / 100000 ∧ |p.y - q.y| ≤ 1 / 100000 ∧ |p.z - q.z| ≤ 1 / 100000)) ∧
      (∀ v w : Vector, vecEq v w ↔
        (|v.x - w.x| ≤ 1 / 100000 ∧ |v.y - w.y| ≤ 1 / 100000 ∧ |v.z - w.z| ≤ 1 / 100000)) ∧
      (∀ c d : Color, colorEq c d ↔
        (|c.r - d.r| ≤ 1 / 100000 ∧ |c.g - d.g| ≤ 1 / 100000 ∧ |c.b - d.b| ≤ 1 / 100000)) ∧
      (∀ a b : Mat16, matEq a b ↔ ∀ i : Fin 16, |a i - b i| ≤ 1 / 100000) ∧
      colorEq ⟨1, 1, 1⟩ ⟨1000001 / 1000000, 1000001 / 1000000, 1000001 / 1000000⟩ ∧
      decide (colorEq ⟨1, 1, 1⟩ ⟨100002 / 100000, 1, 1⟩) = false := by
  refine ⟨fun p q => Iff.rfl, fun v w => Iff.rfl, fun c d => Iff.rfl, fun a b => Iff.rfl,
    ?_, ?_⟩
  · unfold colorEq float_eq EPSILON
    refine ⟨?_, ?_, ?_⟩ <;> · rw [abs_le]; constructor <;> norm_num
  · with_unfolding_all rfl

/-! ### Invertibility and division by zero (claim C7) -/

/-- IEEE-style result of an `f64` division whose operands are exact rationals:
finite quotient, signed infinity, or NaN. -/
inductive F64ext where
  | fin (q : ℚ)
  | posInf
  | negInf
  | nan
deriving DecidableEq

/-- `F64ext` finiteness. -/
def F64ext.isFinite : F64ext → Bool
  | .fin _ => true
  | _ => false

/-- Rust `f64` division on exact rational operands: `a / 0` is `+inf`, `-inf`
or NaN according to the sign of `a`; otherwise the exact quotient. -/
def f64div (a b : ℚ) : F64ext :=
  if b = 0 then (if 0 < a then .posInf else if a < 0 then .negInf else .nan)
  else .fin (a / b)

/-- The entries of src/matrix.rs `inv` with the `cofactor / determinant`
division modelled at `f64` precision of the zero-divisor case: the same
`cofactor4(m, i%4, i/4) / det4(m)` entries as `inv`, but tracking the
non-finite results that `f64` produces when the determinant is zero. -/
def invIEEE (m : Mat16) : Fin 16 → F64ext := fun i =>
  f64div (cofactor4 m ⟨i.val % 4, by omega⟩ ⟨i.val / 4, by omega⟩) (det4 m)

/-- A near-singular matrix: determinant `1e-12`. -/
def nearSingular : Mat16 :=
  matOf [1 / 1000000000000, 0, 0, 0, 0, 1, 0, 0, 0, 0, 1, 0, 0, 0, 0, 1]

/-- The all-zero matrix (determinant 0). -/
def zeroMat : Mat16 := matOf [0, 0, 0, 0, 0, 0, 0, 0, 0, 0, 0, 0, 0, 0, 0, 0]

lemma nearSingular_det : det4 nearSingular = 1 / 1000000000000 := by
  unfold det4 cofactor4 minor4
  norm_num
  rw [det3_expand, det3_expand, det3_expand, det3_expand]
  norm_num [nearSingular, matOf, submat4, skip4]

lemma zeroMat_det : det4 zeroMat = 0 := by
  unfold det4 cofactor4 minor4
  norm_num
  rw [det3_expand, det3_expand, det3_expand, det3_expand]
  norm_num [zeroMat, matOf, submat4, skip4]

/-- C7: `is_invertible()` is the exact comparison `determinant != 0` (so a
`1e-12` determinant counts as invertible), and on a zero-determinant matrix
`inverse()` returns normally with every entry non-finite (cofactor divided by
zero); on a nonzero determinant the IEEE-modelled division agrees with `inv`. -/
theorem is_invertible_exact_and_singular_inverse_nonfinite :
    (∀ m : Mat16, is_invertible m ↔ determinant m ≠ 0) ∧
      is_invertible nearSingular ∧
      (∀ m : Mat16, determinant m = 0 →
        ∀ i : Fin 16, (invIEEE m i).isFinite = false) ∧
      (∀ m : Mat16, determinant m ≠ 0 → ∀ i : Fin 16, invIEEE m i = .fin (inv m i)) := by
  refine ⟨fun m => Iff.rfl, ?_, fun m hdet i => ?_, fun m hdet i => ?_⟩
  · show determinant nearSingular ≠ 0
    show det4 nearSingular ≠ 0
    rw [nearSingular_det]
    norm_num
  · have h0 : det4 m = 0 := hdet
    unfold invIEEE f64div
    rw [if_pos h0]
    split
    · rfl
    · split <;> rfl
  · have h0 : det4 m ≠ 0 := hdet
    unfold invIEEE f64div inv
    rw [if_neg h0]

/-- Witness for C7: at the all-zero matrix the hypothesis `determinant = 0`
holds and the first inverse entry is non-finite; at the invertible example
the IEEE division yields the finite `inv` entry. -/
theorem is_invertible_singular_witness :
    determinant zeroMat = 0 ∧
      (invIEEE zeroMat ⟨0, by omega⟩).isFinite = false ∧
      determinant detExample ≠ 0 ∧
      invIEEE detExample ⟨0, by omega⟩ = .fin (inv detExample ⟨0, by omega⟩) := by
  have h0 : determinant zeroMat = 0 := zeroMat_det
  have h1 : determinant detExample ≠ 0 := by rw [detExample_val]; norm_num
  exact ⟨h0, is_invertible_exact_and_singular_inverse_nonfinite.2.2.1 zeroMat h0 _,
    h1, is_invertible_exact_and_singular_inverse_nonfinite.2.2.2 detExample h1 _⟩

/-! ### Canvas (src/canvas.rs) -/

/-- src/canvas.rs `Canvas`: width, height and the row-major pixel vector. -/
structure Canvas where
  width : ℕ
  height : ℕ
  pixels : List Color

/-- `Canvas::new`: `width * height` black pixels. -/
def Canvas.new (w h : ℕ) : Canvas := ⟨w, h, List.replicate (w * h) ⟨0, 0, 0⟩⟩

/-- `Canvas::with_color`: `width * height` pixels of the given color. -/
def Canvas.with_color (w h : ℕ) (c : Color) : Canvas := ⟨w, h, List.replicate (w * h) c⟩

/-- `Canvas::get`: `self.pixels.get(x + y * self.width)` — the only bounds
check is the flat index against the pixel vector length. -/
def Canvas.get (c : Canvas) (x y : ℕ) : Option Color := c.pixels.get? (x + y * c.width)

/-- Writing through `Canvas::get_mut(x, y)`: `get_mut` computes the same flat
index `x + y * width` as `get`; a write through its `Some` result replaces
that vector slot, and no write happens when it returns `None` (out-of-bounds
flat index), which the out-of-bounds behavior of `List.set` matches. -/
def Canvas.setPixel (c : Canvas) (x y : ℕ) (col : Color) : Canvas :=
  { c with pixels := c.pixels.set (x + y * c.width) col }

/-- C5 counterexample: on a 2x2 canvas, `get(2, 0)` has `x >= width` yet
returns a pixel (the flat index 2 is inside the 4-pixel vector), so
out-of-range access does not always yield the absent value. -/
theorem canvas_get_oob_x_counterexample :
    (Canvas.new 2 2).width ≤ 2 ∧ Canvas.get (Canvas.new 2 2) 2 0 = some ⟨0, 0, 0⟩ := by
  constructor
  · with_unfolding_all decide
  · with_unfolding_all rfl

/-- C5 (amended): `get` returns `none` exactly when the flat index
`x + y * width` falls outside the `width * height` pixel buffer; out-of-range
`y` always yields `none`, and a write at an absent index leaves the canvas
unchanged. -/
theorem canvas_get_none_iff_flat_overflow (c : Canvas)
    (hlen : c.pixels.length = c.width * c.height) (x y : ℕ) :
    (Canvas.get c x y = none ↔ c.width * c.height ≤ x + y * c.width) ∧
      (c.height ≤ y → Canvas.get c x y = none) ∧
      (∀ col : Color, Canvas.get c x y = none → Canvas.setPixel c x y col = c) := by
  have hiff : Canvas.get c x y = none ↔ c.width * c.height ≤ x + y * c.width := by
    unfold Canvas.get
    rw [List.get?_eq_none, hlen]
  refine ⟨hiff, fun hy => ?_, fun col hnone => ?_⟩
  · rw [hiff]
    calc c.width * c.height = c.height * c.width := Nat.mul_comm _ _
      _ ≤ y * c.width := Nat.mul_le_mul_right _ hy
      _ ≤ x + y * c.width := Nat.le_add_left _ _
  · have hidx : c.pixels.length ≤ x + y * c.width := by
      rw [hlen]
      exact hiff.mp hnone
    unfold Canvas.setPixel
    rw [List.set_eq_of_length_le hidx]

/-- Witness for the amended C5 at a concrete canvas: `y` out of range gives
`none` although the flat index formula is what decides it. -/
theorem canvas_get_none_iff_flat_overflow_witness :
    (Canvas.new 2 2).pixels.length = (Canvas.new 2 2).width * (Canvas.new 2 2).height ∧
      ((Canvas.get (Canvas.new 2 2) 0 5 = none ↔
          (Canvas.new 2 2).width * (Canvas.new 2 2).height ≤ 0 + 5 * (Canvas.new 2 2).width) ∧
        ((Canvas.new 2 2).height ≤ 5 → Canvas.get (Canvas.new 2 2) 0 5 = none) ∧
        (∀ col : Color, Canvas.get (Canvas.new 2 2) 0 5 = none →
          Canvas.setPixel (Canvas.new 2 2) 0 5 col = Canvas.new 2 2)) := by
  have hlen : (Canvas.new 2 2).pixels.length =
      (Canvas.new 2 2).width * (Canvas.new 2 2).height := by
    with_unfolding_all rfl
  exact ⟨hlen, canvas_get_none_iff_flat_overflow (Canvas.new 2 2) hlen 0 5⟩

/-- C10: constructors produce exactly `width * height` pixels all equal to the
fill color, the accessors return the constructor arguments, in-bounds `get`
reads the row-major slot `x + y * width`, and writes preserve dimensions and
pixel count. -/
theorem canvas_structural_invariant :
    (∀ w h : ℕ, (Canvas.new w h).width = w ∧ (Canvas.new w h).height = h ∧
      (Canvas.new w h).pixels.length = w * h ∧
      ∀ p ∈ (Canvas.new w h).pixels, p = ⟨0, 0, 0⟩) ∧
      (∀ (w h : ℕ) (col : Color), (Canvas.with_color w h col).width = w ∧
        (Canvas.with_color w h col).height = h ∧
        (Canvas.with_color w h col).pixels.length = w * h ∧
        ∀ p ∈ (Canvas.with_color w h col).pixels, p = col) ∧
      (∀ c : Canvas, c.pixels.length = c.width * c.height → ∀ x y : ℕ,
        x < c.width → y < c.height →
          Canvas.get c x y = c.pixels.get? (x + y * c.width) ∧
          ∃ p, Canvas.get c x y = some p) ∧
      (∀ (c : Canvas) (x y : ℕ) (col : Color),
        (Canvas.setPixel c x y col).width = c.width ∧
        (Canvas.setPixel c x y col).height = c.height ∧
        (Canvas.setPixel c x y col).pixels.length = c.pixels.length) := by
  refine ⟨fun w h => ⟨rfl, rfl, List.length_replicate _ _, fun p hp => ?_⟩,
    fun w h col => ⟨rfl, rfl, List.length_replicate _ _, fun p hp => ?_⟩,
    fun c hlen x y hx hy => ?_, fun c x y col => ⟨rfl, rfl, List.length_set _ _ _⟩⟩
  · exact List.eq_of_mem_replicate hp
  · exact List.eq_of_mem_replicate hp
  · have hidx : x + y * c.width < c.pixels.length := by
      have h1 : x + y * c.width < (y + 1) * c.width := by
        have : (y + 1) * c.width = c.width + y * c.width := by ring
        omega
      have h2 : (y + 1) * c.width ≤ c.height * c.width := Nat.mul_le_mul_right _ hy
      have h3 : c.height * c.width = c.width * c.height := Nat.mul_comm _ _
      omega
    refine ⟨rfl, c.pixels.get ⟨x + y * c.width, hidx⟩, ?_⟩
    unfold Canvas.get
    exact List.get?_eq_get hidx

/-- Witness for C10 at a concrete canvas and in-bounds coordinates. -/
theorem canvas_structural_invariant_witness :
    ((1 : ℕ) < (Canvas.new 3 2).width ∧ (1 : ℕ) < (Canvas.new 3 2).height ∧
        (Canvas.new 3 2).pixels.length = (Canvas.new 3 2).width * (Canvas.new 3 2).height) ∧
      (Canvas.get (Canvas.new 3 2) 1 1 = (Canvas.new 3 2).pixels.get? (1 + 1 * (Canvas.new 3 2).width) ∧
        ∃ p, Canvas.get (Canvas.new 3 2) 1 1 = some p) ∧
      (⟨0, 0, 0⟩ : Color) ∈ (Canvas.new 3 2).pixels ∧
      ∀ p ∈ (Canvas.new 3 2).pixels, p = (⟨0, 0, 0⟩ : Color) := by
  have hlen : (Canvas.new 3 2).pixels.length =
      (Canvas.new 3 2).width * (Canvas.new 3 2).height := by
    with_unfolding_all rfl
  have hx : (1 : ℕ) < (Canvas.new 3 2).width := by with_unfolding_all decide
  have hy : (1 : ℕ) < (Canvas.new 3 2).height := by with_unfolding_all decide
  have hmem : (⟨0, 0, 0⟩ : Color) ∈ (Canvas.new 3 2).pixels := by
    show (⟨0, 0, 0⟩ : Color) ∈ List.replicate (3 * 2) ⟨0, 0, 0⟩
    exact List.mem_replicate.mpr ⟨by norm_num, rfl⟩
  exact ⟨⟨hx, hy, hlen⟩, canvas_structural_invariant.2.2.1 (Canvas.new 3 2) hlen 1 1 hx hy,
    hmem, (canvas_structural_invariant.1 3 2).2.2.2⟩

/-! ### PPM encoding (claim C6) -/

/-- The decimal tokens of one pixel: its three 8-bit channel values. -/
def pixelTokens (t : ℕ × ℕ × ℕ) : List String := [Nat.repr t.1, Nat.repr t.2.1, Nat.repr t.2.2]

/-- The `colors` vector of one row of `Canvas::ppm`, as decimal tokens:
`for w in 0..width { let (r,g,b) = self.get(w, h).unwrap().as_tuple(); ... }`.
The in-bounds `unwrap` is modelled by `getD` (the loop indices satisfy
`w + h * width < width * height` whenever the length invariant holds). -/
def rowColorTokens (c : Canvas) (h : ℕ) : List String :=
  (List.range c.width).flatMap fun w =>
    pixelTokens (as_tuple (c.pixels.getD (w + h * c.width) ⟨0, 0, 0⟩))

/-- The `while let` loop of `Canvas::ppm`: write the token into `buf`; if
`buf.len() >= 70` after the write, flush `&buf[..len]` (the pre-token prefix,
i.e. the previous `buf`) trimmed and restart `buf` from the token; then push
a separating space iff more tokens remain; at the end flush a nonempty `buf`. -/
def ppmWrap : List String → String → List String
  | [], buf => if buf = "" then [] else [buf]
  | t :: rest, buf =>
    if 70 ≤ (buf ++ t).length then
      buf.trim :: ppmWrap rest (if rest = [] then t else t ++ " ")
    else
      ppmWrap rest (if rest = [] then buf ++ t else buf ++ t ++ " ")

/-- Lines joined with a terminating newline each, as `writeln!` produces. -/
def linesOut (ls : List String) : String := String.join (ls.map fun l => l ++ "\n")

/-- src/canvas.rs `Canvas::ppm`: header `P3`, `{width} {height}`, `255`, then
the wrapped lines of each row, every line newline-terminated. -/
def ppm (c : Canvas) : String :=
  "P3" ++ "\n" ++ (Nat.repr c.width ++ " " ++ Nat.repr c.height) ++ "\n" ++ "255" ++ "\n" ++
    String.join ((List.range c.height).map fun h => linesOut (ppmWrap (rowColorTokens c h) ""))

/-- Spec-side wrap, following the wording of the claim: before appending a token
that would make the current line length at least 70 characters, the line is
flushed trimmed of trailing whitespace and a new line starts with that token;
the leftover partial line is flushed at the end. -/
def wrapSpec : List String → String → List String
  | [], buf => if buf = "" then [] else [buf]
  | t :: rest, buf =>
    if 70 ≤ buf.length + t.length then
      buf.trim :: wrapSpec rest (if rest = [] then t else t ++ " ")
    else
      wrapSpec rest (if rest = [] then buf ++ t else buf ++ t ++ " ")

/-- Spec-side PPM: exact header, then row-scoped wrapping (each row starts a
fresh line buffer), every flushed line terminated by a newline. -/
def ppmSpec (c : Canvas) : String :=
  "P3" ++ "\n" ++ (Nat.repr c.width ++ " " ++ Nat.repr c.height) ++ "\n" ++ "255" ++ "\n" ++
    String.join ((List.range c.height).map fun h => linesOut (wrapSpec (rowColorTokens c h) ""))

lemma ppmWrap_eq_wrapSpec (toks : List String) (buf : String) :
    ppmWrap toks buf = wrapSpec toks buf := by
  induction toks generalizing buf with
  | nil => rfl
  | cons t rest ih =>
    unfold ppmWrap wrapSpec
    rw [String.length_append]
    by_cases h : 70 ≤ buf.length + t.length
    · rw [if_pos h, if_pos h, ih]
    · rw [if_neg h, if_neg h, ih]

/-- The reference 10x2 canvas, every pixel `(1.0, 0.8, 0.6)` (test `ppm2`). -/
def ppm2Canvas : Canvas := Canvas.with_color 10 2 ⟨1, 4 / 5, 3 / 5⟩

/-- The reference 5x3 canvas with three written pixels (test `ppm1`). -/
def ppm1Canvas : Canvas :=
  Canvas.setPixel
    (Canvas.setPixel (Canvas.setPixel (Canvas.new 5 3) 0 0 ⟨3 / 2, 0, 0⟩) 2 1 ⟨0, 1 / 2, 0⟩)
    4 2 ⟨-1 / 2, 0, 1⟩

set_option maxRecDepth 100000 in
/-- C6: `ppm()` produces the exact `P3` header and row-scoped 70-column
wrapped body described by the spec, and reproduces the two reference images:
the 5x3 canvas (no wrapping) and the 10x2 canvas (wrapping before the 18th
token of each row), all lines newline-terminated. -/
theorem ppm_format_and_wrapping :
    (∀ c : Canvas, ppm c = ppmSpec c) ∧
      ppm ppm1Canvas =
        "P3\n5 3\n255\n255 0 0 0 0 0 0 0 0 0 0 0 0 0 0\n0 0 0 0 0 0 0 128 0 0 0 0 0 0 0\n0 0 0 0 0 0 0 0 0 0 0 0 0 0 255\n" ∧
      ppm ppm2Canvas =
        "P3\n10 2\n255\n255 204 153 255 204 153 255 204 153 255 204 153 255 204 153 255 204\n153 255 204 153 255 204 153 255 204 153 255 204 153\n255 204 153 255 204 153 255 204 153 255 204 153 255 204 153 255 204\n153 255 204 153 255 204 153 255 204 153 255 204 153\n" := by
  refine ⟨fun c => ?_, ?_, ?_⟩
  · unfold ppm ppmSpec
    simp only [ppmWrap_eq_wrapSpec]
  · with_unfolding_all rfl
  · with_unfolding_all rfl

end RayTracer
